import Mathlib

/-!
Verification of the memex persistence engine: a shallow embedding of the
content-addressed chunk store (`internal/memex/storage/store`), the
hash-chained action log (`internal/memex/transaction`), and the repository
layer (`internal/memex/repository`), together with proofs about the
properties stated in the specification.

Modelling conventions:
* Go byte strings (both `[]byte` values and `string` keys, which in Go are
  plain byte strings) are modelled as `List Nat`, with each element a byte
  value below 256 where that matters.
* The chunk file is modelled at the record level as a `List ChunkRecord` in
  append order; a file offset is the position of a record in that list
  (`writeChunk` only ever appends, and offsets are treated as opaque handles
  by the index).  The byte-level record layout is modelled separately where
  a claim is about the byte layout (`parseHeaderAt`, `loadIndexAux`,
  `encodeHeader`).
* SHA-256 and the JSON codec live outside this repository; they are taken
  as parameters (`H : Bytes → Bytes`, `decodeLink`, `decodeNode`) and
  instantiated with concrete computable functions in witnesses.
* I/O never fails in the model; fallible reads return `Option`.
-/

namespace Memex

abbrev Bytes := List Nat

/-- Hex digit table of Go `encoding/hex` ("0123456789abcdef"): digit value to
ASCII code. -/
def hexDigit (n : Nat) : Nat := if n < 10 then 48 + n else 87 + n

/-- One byte to its two hex characters, high nibble first, as in
`hex.EncodeToString`. -/
def hexByte (b : Nat) : Bytes := [hexDigit (b / 16 % 16), hexDigit (b % 16)]

/-- Go `hex.EncodeToString` over a byte string. -/
def hexEncode (bs : Bytes) : Bytes := (bs.map hexByte).flatten

/-- Value of one ASCII hex character, as in `hex.DecodeString`; accepts
`0-9`, `a-f`, `A-F`. -/
def hexDigitVal (c : Nat) : Option Nat :=
  if 48 ≤ c ∧ c ≤ 57 then some (c - 48)
  else if 97 ≤ c ∧ c ≤ 102 then some (c - 87)
  else if 65 ≤ c ∧ c ≤ 70 then some (c - 55)
  else none

/-- Go `hex.DecodeString`: fails on odd length or a non-hex character. -/
def hexDecode : Bytes → Option Bytes
  | [] => some []
  | [_] => none
  | c1 :: c2 :: rest =>
    match hexDigitVal c1, hexDigitVal c2, hexDecode rest with
    | some h, some l, some r => some ((16 * h + l) :: r)
    | _, _, _ => none

/-- The in-memory chunk index `map[string]int64`, as an association list from
key (a byte string) to file offset.  Insertion replaces any previous binding
of the key, matching Go map assignment. -/
abbrev Index := List (Bytes × Nat)

def idxFind : Index → Bytes → Option Nat
  | [], _ => none
  | (k, v) :: rest, key => if k = key then some v else idxFind rest key

def idxErase : Index → Bytes → Index
  | [], _ => []
  | (k, v) :: rest, key =>
    if k = key then idxErase rest key else (k, v) :: idxErase rest key

def idxInsert (idx : Index) (key : Bytes) (v : Nat) : Index :=
  (key, v) :: idxErase idx key

/-- One stored chunk record: its stored SHA-256 hash field, reference count
and payload.  The magic and checksum fields of `ChunkHeader` are byte-layout
concerns, modelled separately (`parseHeaderAt`); `writeChunk` always writes
them correctly, so record-level reads always pass those checks. -/
structure ChunkRecord where
  hash : Bytes
  refCount : Nat
  data : Bytes
deriving DecidableEq

/-- Action types recorded by the transaction store. -/
inductive ActType where
  | putContent
  | deleteContent
  | addNode
  | deleteNode
  | addLink
  | deleteLink
deriving DecidableEq, Inhabited

/-- State of a `ChunkStore`: the chunk file (record level, append order),
the in-memory index, whether a transaction store is attached
(`s.txStore != nil`), and the sequence of action types recorded so far
through that transaction store. -/
structure StoreState where
  file : List ChunkRecord
  index : Index
  hasTx : Bool
  log : List ActType
deriving DecidableEq

/-- Record an action in the attached transaction store, if any
(`if s.txStore != nil { s.txStore.RecordAction(...) }`). -/
def recordA (s : StoreState) (t : ActType) : StoreState :=
  if s.hasTx then { s with log := s.log ++ [t] } else s

/-- `writeChunk`: append a fresh record (reference count 1) at the end of the
file and return its offset. -/
def writeChunk (s : StoreState) (d : Bytes) (h : Bytes) : Nat × StoreState :=
  (s.file.length, { s with file := s.file ++ [⟨h, 1, d⟩] })

/-- `incrementRefCount` at a file offset.  In the source an invalid offset is
an I/O error aborting the call; offsets handed out by the index are always
valid, and the model leaves the state unchanged on an invalid offset. -/
def incRefAt (s : StoreState) (off : Nat) : StoreState :=
  match s.file.get? off with
  | none => s
  | some r => { s with file := s.file.set off { r with refCount := r.refCount + 1 } }

/-- The index cleanup of `decrementRefCount` once a reference count reaches
zero: drop `key` and the equivalent representations the source derives from
its shape (64-character hex string, 32-byte raw hash, or longer id with a
64-character hex suffix). -/
def eraseEquiv (idx : Index) (key : Bytes) : Index :=
  let i1 := idxErase idx key
  if key.length = 64 then
    match hexDecode key with
    | some hb => idxErase i1 hb
    | none => i1
  else if key.length = 32 then
    idxErase i1 (hexEncode key)
  else if 64 < key.length ∧ key.drop (key.length - 64) ≠ key then
    match hexDecode (key.drop (key.length - 64)) with
    | some hb => idxErase i1 hb
    | none => i1
  else i1

/-- `decrementRefCount(offset, hashStr)`: decrement the reference count
(never below zero) and, when it reaches zero, drop `hashStr` and its
equivalent key representations from the index. -/
def decRefAt (s : StoreState) (off : Nat) (key : Bytes) : StoreState :=
  match s.file.get? off with
  | none => s
  | some r =>
    let rc := if r.refCount > 0 then r.refCount - 1 else r.refCount
    if rc = 0 then
      { s with file := s.file.set off { r with refCount := rc }
               index := eraseEquiv s.index key }
    else
      { s with file := s.file.set off { r with refCount := rc } }

/-- Observable events of one `Put` execution, in program order: an action
record appended to the log, a chunk write to the file, or a reference-count
increment of an already indexed chunk. -/
inductive Event where
  | record : ActType → Event
  | write : Bytes → Event
  | incRef : Nat → Event
deriving DecidableEq

/-- The per-chunk loop of `ChunkStore.Put`: for each chunk, if its hex hash
is indexed, increment the reference count; otherwise write a new record and
index it under the hex hash.  Returns the state, the ordered raw-hash
address list, and the event trace. -/
def putChunks (H : Bytes → Bytes) (s : StoreState) :
    List Bytes → StoreState × List Bytes × List Event
  | [] => (s, [], [])
  | c :: cs =>
    match idxFind s.index (hexEncode (H c)) with
    | some off =>
      let s1 := incRefAt s off
      let r := putChunks H s1 cs
      (r.1, H c :: r.2.1, Event.incRef off :: r.2.2)
    | none =>
      let w := writeChunk s c (H c)
      let s2 := { w.2 with index := idxInsert w.2.index (hexEncode (H c)) w.1 }
      let r := putChunks H s2 cs
      (r.1, H c :: r.2.1, Event.write c :: r.2.2)

/-- `ChunkStore.Put`: record the `ActionPutContent` action (when a
transaction store is attached), then split the content and store each chunk.
`H` models SHA-256, `split` models the content-defined chunker
(`internal/memex/storage.Chunker`, whose implementation is not part of the
sources; the spec contract used about it is that the chunks concatenate back
to the content). -/
def Put (H : Bytes → Bytes) (split : Bytes → List Bytes) (s : StoreState)
    (content : Bytes) : StoreState × List Bytes × List Event :=
  let s1 := recordA s ActType.putContent
  let ev1 : List Event := if s.hasTx then [Event.record ActType.putContent] else []
  let r := putChunks H s1 (split content)
  (r.1, r.2.1, ev1 ++ r.2.2)

/-- `ChunkStore.PutWithID`: drop any previous record under `id`, store the
content verbatim as one record, and index it under `id` plus the equivalent
representations the source adds for hex-looking ids. -/
def PutWithID (H : Bytes → Bytes) (s : StoreState) (id : Bytes)
    (content : Bytes) : StoreState :=
  let s0 :=
    match idxFind s.index id with
    | some off => decRefAt s off id
    | none => s
  let w := writeChunk s0 content (H content)
  let s2 := { w.2 with index := idxInsert w.2.index id w.1 }
  let s3 :=
    if id.length = 64 then
      match hexDecode id with
      | some hb => { s2 with index := idxInsert s2.index hb w.1 }
      | none => s2
    else s2
  let s4 :=
    if id.length = 32 then { s3 with index := idxInsert s3.index (hexEncode id) w.1 }
    else s3
  let s5 :=
    if 64 < id.length ∧ id.drop (id.length - 64) ≠ id then
      match hexDecode (id.drop (id.length - 64)) with
      | some hb => { s4 with index := idxInsert s4.index hb w.1 }
      | none => s4
    else s4
  s5

/-- Address resolution of `ChunkStore.Get`: raw key, then hex-encoded key,
then — when the hex string is longer than a bare hash — its 64-character
suffix. -/
def resolveGet (idx : Index) (addr : Bytes) : Option Nat :=
  match idxFind idx addr with
  | some off => some off
  | none =>
    let hs := hexEncode addr
    match idxFind idx hs with
    | some off => some off
    | none =>
      if 64 < hs.length ∧ hs.drop (hs.length - 64) ≠ hs then
        idxFind idx (hs.drop (hs.length - 64))
      else none

/-- `ChunkStore.Get`: resolve each address and concatenate the chunk
payloads in address order; `none` models the "chunk not found" error. -/
def getChunks (s : StoreState) : List Bytes → Option Bytes
  | [] => some []
  | addr :: rest =>
    match resolveGet s.index addr with
    | none => none
    | some off =>
      match s.file.get? off with
      | none => none
      | some r =>
        match getChunks s rest with
        | none => none
        | some more => some (r.data ++ more)

/-- The per-address loop of `ChunkStore.Delete`: resolve by raw key, else by
hex key; an address resolving by neither is skipped.  Note the source has no
64-character-suffix fallback here, unlike `Get`. -/
def deleteAddrs (s : StoreState) : List Bytes → StoreState
  | [] => s
  | addr :: rest =>
    let s1 :=
      match idxFind s.index addr with
      | some off => decRefAt s off addr
      | none =>
        match idxFind s.index (hexEncode addr) with
        | some off => decRefAt s off (hexEncode addr)
        | none => s
    deleteAddrs s1 rest

/-- `ChunkStore.Delete`: record the `ActionDeleteContent` action, then
process each address. -/
def DeleteStore (s : StoreState) (addrs : List Bytes) : StoreState :=
  deleteAddrs (recordA s ActType.deleteContent) addrs

/-- The loop of `ChunkStore.ListChunks`: decode each hex-like key back to
raw form and deduplicate by the decoded representation, via the `seen`
accumulator. -/
def listChunksAux : Index → List Bytes → List Bytes
  | [], _ => []
  | (k, _) :: rest, seen =>
    let addr :=
      match hexDecode k with
      | some d => d
      | none => k
    if addr ∈ seen then listChunksAux rest seen
    else addr :: listChunksAux rest (addr :: seen)

/-- `ChunkStore.ListChunks`. -/
def ListChunks (s : StoreState) : List Bytes := listChunksAux s.index []

/-! Byte-level models: the repository header written by `Create` and
`updateHeader`, and the index rebuild scan of `ChunkStore.loadIndex`. -/

/-- Little-endian encoding of a `uint32`, as written by `binary.Write` with
`binary.LittleEndian`. -/
def u32le (n : Nat) : Bytes :=
  [n % 256, n / 256 % 256, n / 65536 % 256, n / 16777216 % 256]

/-- Little-endian encoding of a `uint64` (or of a non-negative `int64`
timestamp). -/
def u64le (n : Nat) : Bytes := u32le (n % 4294967296) ++ u32le (n / 4294967296)

/-- The `Header` struct of `internal/memex/repository`: magic `[7]byte`,
major and minor version bytes, creator version `[32]byte`, two `int64`
timestamps, two `uint32` counters, two `uint64` index offsets, and
`Reserved [31]byte`.  Fixed-size byte arrays are modelled as byte lists
padded or truncated to the declared size on encoding. -/
structure RepoHeader where
  magic : Bytes
  formatVersion : Nat
  formatMinor : Nat
  memexVersion : Bytes
  created : Nat
  modified : Nat
  nodeCount : Nat
  edgeCount : Nat
  nodeIndex : Nat
  edgeIndex : Nat
  reserved : Bytes
deriving DecidableEq

/-- Pad with zero bytes (or truncate) to exactly `n` bytes, the behaviour
of a Go fixed-size byte array field. -/
def padTo (n : Nat) (bs : Bytes) : Bytes := (bs ++ List.replicate n 0).take n

/-- The byte string `binary.Write(file, binary.LittleEndian, &header)`
produces for a `Header` value: `encoding/binary` packs the fields in
declaration order with no alignment padding. -/
def encodeHeader (h : RepoHeader) : Bytes :=
  padTo 7 h.magic ++ [h.formatVersion % 256, h.formatMinor % 256]
    ++ padTo 32 h.memexVersion ++ u64le h.created ++ u64le h.modified
    ++ u32le h.nodeCount ++ u32le h.edgeCount
    ++ u64le h.nodeIndex ++ u64le h.edgeIndex ++ padTo 31 h.reserved

/-- Little-endian `uint32` read from a byte string at an offset (missing
bytes read as 0; `parseHeaderAt` guards the length before this is used). -/
def readU32At (bs : Bytes) (off : Nat) : Nat :=
  bs.getD off 0 + 256 * bs.getD (off + 1) 0 + 65536 * bs.getD (off + 2) 0
    + 16777216 * bs.getD (off + 3) 0

/-- A decoded on-disk `ChunkHeader` (52 bytes): magic, size, hash,
reference count, reserved, checksum. -/
structure DiskHeader where
  magic : Nat
  size : Nat
  hash : Bytes
  refCount : Nat
  reserved : Nat
  checksum : Nat
deriving DecidableEq

/-- `binary.Size(ChunkHeader)` is 52: `readAt` returns `io.EOF` (mapped to
`none`) when fewer than 52 bytes remain at the offset. -/
def parseHeaderAt (bs : Bytes) (off : Nat) : Option DiskHeader :=
  if off + 52 ≤ bs.length then
    some { magic := readU32At bs off
           size := readU32At bs (off + 4)
           hash := (bs.drop (off + 8)).take 32
           refCount := readU32At bs (off + 40)
           reserved := readU32At bs (off + 44)
           checksum := readU32At bs (off + 48) }
  else none

/-- `ChunkMagic = 0x4B4E4843`. -/
def chunkMagicVal : Nat := 0x4B4E4843

/-- The scan loop of `ChunkStore.loadIndex` over the raw file bytes: on a
bad magic the offset advances by 4 (`offset += 4`); on a valid header with a
positive reference count the hash is indexed in hex and raw form and the
scan continues past the record.  Fuel bounds the recursion; every step
advances the offset by at least 4, so `bs.length + 1` fuel is ample. -/
def loadIndexAux (bs : Bytes) : Nat → Index → Nat → Index
  | 0, idx, _ => idx
  | fuel + 1, idx, off =>
    if off < bs.length then
      match parseHeaderAt bs off with
      | none => idx
      | some h =>
        if h.magic ≠ chunkMagicVal then
          loadIndexAux bs fuel idx (off + 4)
        else
          let idx2 :=
            if h.refCount > 0 then
              idxInsert (idxInsert idx (hexEncode h.hash) off) h.hash off
            else idx
          let nxt := off + 52 + h.size
          if nxt ≤ off then idx2
          else loadIndexAux bs fuel idx2 nxt
    else idx

/-- `ChunkStore.loadIndex`: rebuild the index by scanning from offset 0. -/
def loadIndex (bs : Bytes) : Index := loadIndexAux bs (bs.length + 1) [] 0

/-- Modelled from the spec: the same scan but advancing one byte at a time
on a bad magic ("the scanner advances one byte at a time seeking
realignment").  Used only to compare the spec's words with the source,
which advances four bytes. -/
def loadIndexOneByteAux (bs : Bytes) : Nat → Index → Nat → Index
  | 0, idx, _ => idx
  | fuel + 1, idx, off =>
    if off < bs.length then
      match parseHeaderAt bs off with
      | none => idx
      | some h =>
        if h.magic ≠ chunkMagicVal then
          loadIndexOneByteAux bs fuel idx (off + 1)
        else
          let idx2 :=
            if h.refCount > 0 then
              idxInsert (idxInsert idx (hexEncode h.hash) off) h.hash off
            else idx
          let nxt := off + 52 + h.size
          if nxt ≤ off then idx2
          else loadIndexOneByteAux bs fuel idx2 nxt
    else idx

/-- Modelled from the spec: index rebuild with one-byte realignment. -/
def loadIndexOneByte (bs : Bytes) : Index :=
  loadIndexOneByteAux bs (bs.length + 1) [] 0

/-! The action log (`transaction.ActionStore`). -/

abbrev PayloadMap := List (String × String)

/-- An action envelope: type, payload, timestamp, hash of the previous
action, and state hash.  The `Action` struct itself and its self-hash
method are outside the given sources; the envelope fields follow the spec
and the uses in `RecordAction`, and the self hash is an arbitrary function
parameter `hashA` below. -/
structure ActionRec where
  atype : ActType
  payload : PayloadMap
  timestamp : Nat
  prevHash : Bytes
  stateHash : Bytes
deriving DecidableEq, Inhabited

/-- The all-zero `[32]byte` value. -/
def zero32 : Bytes := List.replicate 32 0

/-- `calculateStateHash` is a placeholder in the source: it ignores the
action and always returns the zero value. -/
def calculateStateHash (_t : ActType) (_p : PayloadMap) : Bytes := zero32

/-- State of an `ActionStore`: the hash of the last action and the log
contents. -/
structure LogState where
  lastHash : Bytes
  log : List ActionRec
deriving DecidableEq

/-- `ActionStore.RecordAction`: build the action with `PrevHash` set to the
last-known hash and the placeholder state hash, append it to the log, and
update the last-known hash to the new action's self hash `hashA a`. -/
def recordAction (hashA : ActionRec → Bytes) (st : LogState) (t : ActType)
    (p : PayloadMap) (ts : Nat) : LogState :=
  let a : ActionRec :=
    { atype := t, payload := p, timestamp := ts
      prevHash := st.lastHash, stateHash := calculateStateHash t p }
  { lastHash := hashA a, log := st.log ++ [a] }

/-- A fresh action store: empty log, zero last hash (the Go zero value of
`[32]byte`). -/
def initLog : LogState := { lastHash := zero32, log := [] }

/-- Hash-chain invariant of a log: every action after the first carries as
`prevHash` the self hash of the immediately preceding action. -/
def Chained (hashA : ActionRec → Bytes) (l : List ActionRec) : Prop :=
  ∀ i a b, l.get? i = some a → l.get? (i + 1) = some b → b.prevHash = hashA a

/-- Record a list of requests (type, payload, timestamp) in order. -/
def recordAll (hashA : ActionRec → Bytes) (st : LogState)
    (reqs : List (ActType × PayloadMap × Nat)) : LogState :=
  reqs.foldl (fun st r => recordAction hashA st r.1 r.2.1 r.2.2) st

/-! The repository layer (`internal/memex/repository`). -/

/-- The fields of a link envelope that `DeleteLink` compares; a value of
this type models a successful `json.Unmarshal` of a stored payload into
`core.Link`. -/
structure LinkRec where
  source : Bytes
  target : Bytes
  ltype : Bytes
deriving DecidableEq, Inhabited

/-- The fields of a node envelope relevant to `GetNode`: identity, type,
content, and metadata.  `meta = none` models a Go `nil` map. -/
structure NodeRec where
  nid : Bytes
  ntype : Bytes
  content : Bytes
  meta : Option PayloadMap
deriving DecidableEq, Inhabited

/-- Repository state: the shared chunk store (which also carries the shared
transaction log) and the header counters. -/
structure Repo where
  store : StoreState
  nodeCount : Nat
  edgeCount : Nat
deriving DecidableEq

/-- `Repository.GetNode`.  `decodeNode d = some n` models
`json.Unmarshal(d, &node)` succeeding with the fields of `n`.  The source
tries the raw id, then (for a 64-character id) its hex decoding; when the
hex decoding itself fails it falls through with nil data, whose unmarshal
fails, producing the degraded wrapper.  On success the returned node's ID
is overwritten with the requested id and a nil metadata map is replaced by
a fresh empty one.  `finishNode` is that final parse-and-normalize step. -/
def finishNode (decodeNode : Bytes → Option NodeRec) (id : Bytes)
    (data : Bytes) : NodeRec :=
  let n :=
    match decodeNode data with
    | some n => n
    | none => { nid := [], ntype := [], content := data, meta := some [] }
  { n with nid := id, meta := some (n.meta.getD []) }

def getNodeGo (decodeNode : Bytes → Option NodeRec) (s : StoreState)
    (id : Bytes) : Option NodeRec :=
  match getChunks s [id] with
  | some data => some (finishNode decodeNode id data)
  | none =>
    if id.length = 64 then
      match hexDecode id with
      | some hb => (getChunks s [hb]).map (finishNode decodeNode id)
      | none => some (finishNode decodeNode id [])
    else none

/-- The match test inside `Repository.DeleteLink`: fetch the chunk, try to
parse it as a link, and compare source, target and type. -/
def linkMatchesB (dl : Bytes → Option LinkRec) (s : StoreState)
    (src tgt ty : Bytes) (c : Bytes) : Bool :=
  match getChunks s [c] with
  | none => false
  | some d =>
    match dl d with
    | none => false
    | some l => decide (l.source = src ∧ l.target = tgt ∧ l.ltype = ty)

/-- The chunk loop of `Repository.DeleteLink`: on the first matching chunk,
delete it through the store, decrement the edge counter (not below zero),
record the delete-link action, and stop; with no match, fall through as a
no-op success.  Also returns which chunk, if any, was deleted. -/
def deleteLinkGo (dl : Bytes → Option LinkRec) (r : Repo)
    (src tgt ty : Bytes) : List Bytes → Repo × Option Bytes
  | [] => (r, none)
  | c :: cs =>
    if linkMatchesB dl r.store src tgt ty c then
      let s1 := DeleteStore r.store [c]
      let ec := if r.edgeCount > 0 then r.edgeCount - 1 else r.edgeCount
      let s2 := recordA s1 ActType.deleteLink
      ({ store := s2, nodeCount := r.nodeCount, edgeCount := ec }, some c)
    else deleteLinkGo dl r src tgt ty cs

/-- `Repository.DeleteLink`: scan all listed chunks for the first matching
link. -/
def DeleteLink (dl : Bytes → Option LinkRec) (r : Repo)
    (src tgt ty : Bytes) : Repo × Option Bytes :=
  deleteLinkGo dl r src tgt ty (ListChunks r.store)

/-! Concrete instances used by witnesses and counterexamples: a computable
stand-in for SHA-256 (32 bytes of output, byte-valued entries) and the
one-chunk splitter (any splitter satisfying the spec's reassembly contract
may be instantiated; small inputs are a single chunk under the real
min-size rule as well). -/

def hFix : Bytes → Bytes := fun d => (d.map (· % 256) ++ List.replicate 32 0).take 32

def split1 : Bytes → List Bytes := fun c => [c]

/-- A freshly created chunk store with an attached transaction store. -/
def s0 : StoreState := ⟨[], [], true, []⟩

/-- An id equal to the hex form of the hash of the *other* content `[1]`;
`PutWithID` with this id also indexes the raw hash bytes, poisoning later
deduplication of `[1]`. -/
def idp : Bytes := hexEncode (hFix [1])

def sPoison : StoreState := PutWithID hFix s0 idp [2]

/-- A store holding one chunk `[5]`, as produced by `Put`. -/
def sC4 : StoreState := (Put hFix split1 s0 [5]).1

/-- A 33-byte address carrying a one-byte id before the bare hash of `[5]`:
`Get` resolves it through the 64-character-suffix fallback. -/
def addrP : Bytes := 9 :: hFix [5]

/-- A prefixed id: one non-hex byte before 64 hex characters. -/
def idPfx : Bytes := 120 :: List.replicate 64 48

def sC7 : StoreState := PutWithID hFix s0 idPfx [1]

/-- A byte file: three stray bytes, then one valid chunk record (magic
`CHNK` little-endian, size 1, refCount 1, one payload byte). -/
def recBytes : Bytes :=
  [67, 72, 78, 75] ++ [1, 0, 0, 0] ++ List.replicate 32 5 ++ [1, 0, 0, 0]
    ++ [0, 0, 0, 0] ++ [0, 0, 0, 0] ++ [9]

def exF : Bytes := [0, 0, 0] ++ recBytes

/-- A store holding two distinct records whose payloads both parse as the
same link under `dlC`. -/
def k0 : Bytes := List.replicate 32 3

def k1 : Bytes := List.replicate 32 1

def sL : StoreState := ⟨[⟨k0, 1, [7]⟩, ⟨k1, 1, [8]⟩], [(k0, 0), (k1, 1)], true, []⟩

def rL : Repo := ⟨sL, 0, 2⟩

def dlC : Bytes → Option LinkRec :=
  fun d => if d = [7] ∨ d = [8] then some ⟨[10], [11], [12]⟩ else none

def dn0 : Bytes → Option NodeRec := fun _ => none

/-! Index lemmas. -/

theorem idxFind_idxErase (idx : Index) (key k : Bytes) :
    idxFind (idxErase idx key) k = if key = k then none else idxFind idx k := by
  induction idx with
  | nil => simp [idxErase, idxFind]
  | cons p rest ih =>
    obtain ⟨k', v⟩ := p
    by_cases h1 : k' = key
    · subst h1
      by_cases h2 : k' = k
      · subst h2; simp [idxErase, idxFind, ih]
      · simp [idxErase, idxFind, h2, ih]
    · by_cases h2 : k' = k
      · subst h2
        have : ¬ key = k' := fun h => h1 h.symm
        simp [idxErase, idxFind, h1, this]
      · simp [idxErase, idxFind, h1, h2, ih]

theorem idxFind_idxInsert (idx : Index) (key k : Bytes) (v : Nat) :
    idxFind (idxInsert idx key v) k = if key = k then some v else idxFind idx k := by
  by_cases h : key = k
  · subst h; simp [idxInsert, idxFind]
  · simp [idxInsert, idxFind, h, idxFind_idxErase]

theorem idxFind_isSome_idxInsert (idx : Index) (key k : Bytes) (v : Nat)
    (h : (idxFind idx k).isSome) : (idxFind (idxInsert idx key v) k).isSome := by
  rw [idxFind_idxInsert]
  by_cases hk : key = k <;> simp [hk, h]

/-! Hex encoding lemmas. -/

theorem hexEncode_nil : hexEncode [] = [] := rfl

theorem hexEncode_cons (b : Nat) (bs : Bytes) :
    hexEncode (b :: bs) = hexDigit (b / 16 % 16) :: hexDigit (b % 16) :: hexEncode bs := rfl

theorem hexEncode_length (bs : Bytes) : (hexEncode bs).length = 2 * bs.length := by
  induction bs with
  | nil => rfl
  | cons b bs ih => rw [hexEncode_cons]; simp [ih]; ring

theorem hexEncode_append (a b : Bytes) :
    hexEncode (a ++ b) = hexEncode a ++ hexEncode b := by
  simp [hexEncode]

theorem hexDigit_inj : ∀ a < 16, ∀ b < 16, hexDigit a = hexDigit b → a = b := by decide

theorem hexEncode_inj (a b : Bytes) (ha : ∀ x ∈ a, x < 256) (hb : ∀ x ∈ b, x < 256)
    (h : hexEncode a = hexEncode b) : a = b := by
  induction a generalizing b with
  | nil =>
    cases b with
    | nil => rfl
    | cons y ys => rw [hexEncode_nil, hexEncode_cons] at h; exact absurd h (by simp)
  | cons x xs ih =>
    cases b with
    | nil => rw [hexEncode_nil, hexEncode_cons] at h; exact absurd h (by simp)
    | cons y ys =>
      rw [hexEncode_cons, hexEncode_cons] at h
      have h1 : hexDigit (x / 16 % 16) = hexDigit (y / 16 % 16) := by
        exact (List.cons.injEq _ _ _ _ ▸ h).1
      have h2 : hexDigit (x % 16) = hexDigit (y % 16) := by
        have := (List.cons.injEq _ _ _ _ ▸ h).2
        exact (List.cons.injEq _ _ _ _ ▸ this).1
      have h3 : hexEncode xs = hexEncode ys := by
        have := (List.cons.injEq _ _ _ _ ▸ h).2
        exact (List.cons.injEq _ _ _ _ ▸ this).2
      have hx : x < 256 := ha x (by simp)
      have hy : y < 256 := hb y (by simp)
      have e1 : x / 16 % 16 = y / 16 % 16 :=
        hexDigit_inj _ (Nat.mod_lt _ (by omega)) _ (Nat.mod_lt _ (by omega)) h1
      have e2 : x % 16 = y % 16 :=
        hexDigit_inj _ (Nat.mod_lt _ (by omega)) _ (Nat.mod_lt _ (by omega)) h2
      have ex : x / 16 % 16 = x / 16 := Nat.mod_eq_of_lt (by omega)
      have ey : y / 16 % 16 = y / 16 := Nat.mod_eq_of_lt (by omega)
      have exy : x = y := by
        have dx := Nat.div_add_mod x 16
        have dy := Nat.div_add_mod y 16
        rw [ex, ey] at e1
        omega
      have := ih ys (fun z hz => ha z (by simp [hz])) (fun z hz => hb z (by simp [hz])) h3
      rw [exy, this]

/-! C3: the repository header length. -/

theorem padTo_length (n : Nat) (bs : Bytes) : (padTo n bs).length = n := by
  simp [padTo]

/-- C3: the Header record does NOT serialize to 128 bytes: `binary.Write`
over its fields (7 + 1 + 1 + 32 + 8 + 8 + 4 + 4 + 8 + 8 + 31) produces
exactly 112 bytes, contradicting both the spec and the source's own
`(128 bytes)` comment on the struct. -/
theorem header_encodes_to_112 (h : RepoHeader) :
    (encodeHeader h).length = 112 ∧ (encodeHeader h).length ≠ 128 := by
  have : (encodeHeader h).length = 112 := by
    simp [encodeHeader, padTo_length, u64le, u32le]
  exact ⟨this, by omega⟩

/-! C6: the loadIndex scanner realignment step. -/

/-- C6 counterexample: on the file `exF` (three stray bytes before a valid
record) the source scanner, which advances four bytes on a bad magic, finds
nothing, while the spec's one-byte scanner finds and indexes the record. -/
theorem loadindex_cex : loadIndex exF ≠ loadIndexOneByte exF := by decide

/-- C6 amended: whenever the magic check fails on a parsed candidate header,
the scanner advances exactly four bytes before retrying. -/
theorem loadindex_skip_four (bs : Bytes) (fuel : Nat) (idx : Index) (off : Nat)
    (h : DiskHeader) (hlt : off < bs.length) (hp : parseHeaderAt bs off = some h)
    (hm : h.magic ≠ chunkMagicVal) :
    loadIndexAux bs (fuel + 1) idx off = loadIndexAux bs fuel idx (off + 4) := by
  simp [loadIndexAux, hlt, hp, hm]

/-- Witness for `loadindex_skip_four`: a 52-byte all-zero file parses at
offset 0 with magic 0, and the scan continues at offset 4. -/
theorem loadindex_skip_four_witness :
    loadIndexAux (List.replicate 52 0) 1 [] 0 = loadIndexAux (List.replicate 52 0) 0 [] 4 :=
  loadindex_skip_four (List.replicate 52 0) 0 [] 0
    ⟨0, 0, List.replicate 32 0, 0, 0, 0⟩ (by decide) (by decide) (by decide)

/-! C7: ListChunks deduplication. -/

/-- C7 counterexample: after `PutWithID` with a prefixed id, the same record
(offset 0) is reported twice by `ListChunks`, once as the raw decoded hash
suffix and once as the undecodable prefixed id. -/
theorem listchunks_same_offset_cex :
    ListChunks sC7 = [List.replicate 32 0, idPfx]
      ∧ List.replicate 32 0 ≠ idPfx
      ∧ resolveGet sC7.index (List.replicate 32 0) = some 0
      ∧ resolveGet sC7.index idPfx = some 0 := by decide

theorem listChunksAux_nodup (idx : Index) (seen : List Bytes) :
    (listChunksAux idx seen).Nodup ∧ ∀ a ∈ listChunksAux idx seen, a ∉ seen := by
  induction idx generalizing seen with
  | nil => simp [listChunksAux]
  | cons p rest ih =>
    obtain ⟨k, v⟩ := p
    simp only [listChunksAux]
    set addr := (match hexDecode k with | some d => d | none => k) with haddr
    by_cases hmem : addr ∈ seen
    · simp only [if_pos hmem]
      exact ⟨(ih seen).1, (ih seen).2⟩
    · simp only [if_neg hmem]
      have h1 := ih (addr :: seen)
      constructor
      · refine List.nodup_cons.mpr ⟨?_, h1.1⟩
        intro hc
        exact absurd (by simp : addr ∈ addr :: seen) (by simpa using h1.2 addr hc)
      · intro a ha
        rcases List.mem_cons.mp ha with h | h
        · subst h; exact hmem
        · intro hs
          exact h1.2 a h (by simp [hs])

/-- C7 amended: `ListChunks` never reports the same decoded address twice
(its output has no duplicate entries); the same file offset can still be
reported under two different decoded representations, as the counterexample
shows. -/
theorem listchunks_nodup (s : StoreState) : (ListChunks s).Nodup :=
  (listChunksAux_nodup s.index []).1

/-! C2: the action-log hash chain. -/

/-- The last-known hash matches the self hash of the last logged action. -/
def LastOK (hashA : ActionRec → Bytes) (st : LogState) : Prop :=
  ∀ a, st.log.get? (st.log.length - 1) = some a → st.lastHash = hashA a

theorem recordAction_inv (hashA : ActionRec → Bytes) (st : LogState)
    (t : ActType) (p : PayloadMap) (ts : Nat)
    (hc : Chained hashA st.log) (hl : LastOK hashA st) :
    Chained hashA (recordAction hashA st t p ts).log
      ∧ LastOK hashA (recordAction hashA st t p ts) := by
  set a : ActionRec :=
    { atype := t, payload := p, timestamp := ts
      prevHash := st.lastHash, stateHash := calculateStateHash t p } with ha
  have hlog : (recordAction hashA st t p ts).log = st.log ++ [a] := rfl
  have hlast : (recordAction hashA st t p ts).lastHash = hashA a := rfl
  constructor
  · intro i x y hx hy
    rw [hlog] at hx hy
    by_cases hi1 : i + 1 < st.log.length
    · have hi0 : i < st.log.length := by omega
      rw [List.get?_append hi0] at hx
      rw [List.get?_append hi1] at hy
      exact hc i x y hx hy
    · by_cases hi2 : i + 1 = st.log.length
      · have hi0 : i < st.log.length := by omega
        rw [List.get?_append hi0] at hx
        have : (st.log ++ [a]).get? (i + 1) = some a := by
          rw [hi2]; exact List.get?_concat_length st.log a
        rw [this] at hy
        cases hy
        have : st.lastHash = hashA x := hl x (by rw [show st.log.length - 1 = i by omega]; exact hx)
        simpa [ha] using this
      · have : (st.log ++ [a]).get? (i + 1) = none := by
          rw [List.get?_eq_none]
          simp only [List.length_append, List.length_singleton]
          omega
        rw [this] at hy
        cases hy
  · intro x hx
    rw [hlog] at hx
    have hgl : (st.log ++ [a]).get? ((st.log ++ [a]).length - 1) = some a := by
      simp only [List.length_append, List.length_singleton, Nat.add_sub_cancel]
      exact List.get?_concat_length st.log a
    rw [hgl] at hx
    simp only [Option.some.injEq] at hx
    rw [hlast, hx]

theorem recordAll_inv (hashA : ActionRec → Bytes)
    (reqs : List (ActType × PayloadMap × Nat)) (st : LogState)
    (hc : Chained hashA st.log) (hl : LastOK hashA st) :
    Chained hashA (recordAll hashA st reqs).log
      ∧ LastOK hashA (recordAll hashA st reqs) := by
  induction reqs generalizing st with
  | nil => exact ⟨hc, hl⟩
  | cons r rest ih =>
    have step := recordAction_inv hashA st r.1 r.2.1 r.2.2 hc hl
    have : recordAll hashA st (r :: rest)
        = recordAll hashA (recordAction hashA st r.1 r.2.1 r.2.2) rest := rfl
    rw [this]
    exact ih _ step.1 step.2

/-- C2: for every self-hash function and every sequence of recorded
requests, the log built by `RecordAction` from a fresh store satisfies the
hash-chain invariant: each action after the first carries the self hash of
its immediate predecessor in `prevHash`. -/
theorem action_chain (hashA : ActionRec → Bytes)
    (reqs : List (ActType × PayloadMap × Nat)) :
    Chained hashA (recordAll hashA initLog reqs).log := by
  refine (recordAll_inv hashA reqs initLog ?_ ?_).1
  · intro i a b ha _
    simp [initLog] at ha
  · intro a ha
    simp [initLog] at ha

/-! C5: order of the action record and the chunk writes inside `Put`. -/

theorem putChunks_no_record (H : Bytes → Bytes) (cs : List Bytes) (s : StoreState) :
    ∀ e ∈ (putChunks H s cs).2.2, ∀ t, e ≠ Event.record t := by
  induction cs generalizing s with
  | nil => simp [putChunks]
  | cons c rest ih =>
    intro e he t
    simp only [putChunks] at he
    cases hf : idxFind s.index (hexEncode (H c)) with
    | some off =>
      rw [hf] at he
      simp only [List.mem_cons] at he
      rcases he with he | he
      · subst he; simp
      · exact ih _ e he t
    | none =>
      rw [hf] at he
      simp only [List.mem_cons] at he
      rcases he with he | he
      · subst he; simp
      · exact ih _ e he t

/-- C5 counterexample: in the concrete `Put` of `[1]` into the fresh store,
the action record is the event at position 0 and the only chunk write is at
position 1, so it is not the case that every write precedes every record —
the source records the `ActionPutContent` action *before* writing any chunk
data. -/
theorem put_action_order_cex :
    ¬ (∀ i j t d, (Put hFix split1 s0 [1]).2.2.get? i = some (Event.record t) →
        (Put hFix split1 s0 [1]).2.2.get? j = some (Event.write d) → j < i) := by
  intro hall
  have := hall 0 1 ActType.putContent [1] (by decide) (by decide)
  omega

/-- C5 amended: in every execution of `ChunkStore.Put` with a transaction
store attached, the action record strictly precedes every chunk write in
the event trace (the reverse of the claimed order). -/
theorem put_records_before_writes (H : Bytes → Bytes) (split : Bytes → List Bytes)
    (s : StoreState) (content : Bytes) (hT : s.hasTx = true)
    (i j : Nat) (t : ActType) (d : Bytes)
    (hi : (Put H split s content).2.2.get? i = some (Event.record t))
    (hj : (Put H split s content).2.2.get? j = some (Event.write d)) : i < j := by
  have htr : (Put H split s content).2.2
      = Event.record ActType.putContent
          :: (putChunks H (recordA s ActType.putContent) (split content)).2.2 := by
    simp [Put, hT]
  rw [htr] at hi hj
  have hi0 : i = 0 := by
    by_contra h0
    obtain ⟨i', rfl⟩ : ∃ i', i = i' + 1 := ⟨i - 1, by omega⟩
    simp only [List.get?_cons_succ] at hi
    have := putChunks_no_record H (split content) (recordA s ActType.putContent)
      (Event.record t) (List.get?_mem hi) t
    exact this rfl
  subst hi0
  cases j with
  | zero => simp at hj
  | succ j' => omega

/-- Witness for `put_records_before_writes` at the concrete one-chunk put. -/
theorem put_records_before_writes_witness : s0.hasTx = true ∧ 0 < 1 :=
  ⟨rfl, put_records_before_writes hFix split1 s0 [1] rfl 0 1 ActType.putContent [1]
    (by decide) (by decide)⟩

/-! C9: GetNode always returns the requested id and a non-nil metadata map. -/

/-- C9: whenever `GetNode` succeeds, the returned node's ID equals the
requested id (any stored ID is overwritten) and its metadata map is
non-nil, including on the degraded parse-failure paths. -/
theorem getnode_id_meta (dn : Bytes → Option NodeRec) (s : StoreState)
    (id : Bytes) (n : NodeRec) (h : getNodeGo dn s id = some n) :
    n.nid = id ∧ n.meta ≠ none := by
  have hfin : ∀ data, (finishNode dn id data).nid = id
      ∧ (finishNode dn id data).meta ≠ none := by
    intro data
    unfold finishNode
    cases dn data <;> simp
  unfold getNodeGo at h
  cases hg : getChunks s [id] with
  | some data =>
    rw [hg] at h
    simp only [Option.some.injEq] at h
    subst h
    exact hfin data
  | none =>
    rw [hg] at h
    by_cases hl : id.length = 64
    · rw [if_pos hl] at h
      cases hd : hexDecode id with
      | some hb =>
        rw [hd] at h
        dsimp only at h
        cases hg2 : getChunks s [hb] with
        | none => rw [hg2] at h; simp at h
        | some data =>
          rw [hg2] at h
          injection h with h2
          subst h2
          exact hfin data
      | none =>
        rw [hd] at h
        simp only [Option.some.injEq] at h
        subst h
        exact hfin []
    · rw [if_neg hl] at h
      simp at h


/-- Witness for `getnode_id_meta`: retrieving the chunk stored for `[5]` by
its (non-indexed-raw) hash id, with a decoder that always fails. -/
theorem getnode_id_meta_witness :
    (⟨hFix [5], [], [5], some []⟩ : NodeRec).nid = hFix [5]
      ∧ (⟨hFix [5], [], [5], some []⟩ : NodeRec).meta ≠ none :=
  getnode_id_meta dn0 sC4 (hFix [5]) ⟨hFix [5], [], [5], some []⟩ (by decide)

/-! C8: DeleteLink with no matching link is a no-op success. -/

theorem deleteLinkGo_noop (dl : Bytes → Option LinkRec) (r : Repo)
    (src tgt ty : Bytes) (cs : List Bytes)
    (h : ∀ c ∈ cs, linkMatchesB dl r.store src tgt ty c = false) :
    deleteLinkGo dl r src tgt ty cs = (r, none) := by
  induction cs with
  | nil => rfl
  | cons c rest ih =>
    have hc : linkMatchesB dl r.store src tgt ty c = false := h c (by simp)
    simp only [deleteLinkGo, hc, Bool.false_eq_true, if_false]
    exact ih (fun c' hc' => h c' (by simp [hc']))

/-- C8: when no stored chunk parses as a link with the given source, target
and type, `DeleteLink` is a no-op success: the repository state (header
counters, chunk store, action log) is returned unchanged and nothing is
deleted. -/
theorem deletelink_noop (dl : Bytes → Option LinkRec) (r : Repo)
    (src tgt ty : Bytes)
    (h : ∀ c ∈ ListChunks r.store, linkMatchesB dl r.store src tgt ty c = false) :
    DeleteLink dl r src tgt ty = (r, none) :=
  deleteLinkGo_noop dl r src tgt ty (ListChunks r.store) h

/-- Witness for `deletelink_noop`: deleting a link whose source matches no
stored chunk leaves the concrete repository `rL` untouched. -/
theorem deletelink_noop_witness : DeleteLink dlC rL [99] [11] [12] = (rL, none) :=
  deletelink_noop dlC rL [99] [11] [12] (by decide)

/-! State-preservation lemmas about the store operations. -/

theorem recordA_index (s : StoreState) (t : ActType) : (recordA s t).index = s.index := by
  unfold recordA; split <;> rfl

theorem recordA_file (s : StoreState) (t : ActType) : (recordA s t).file = s.file := by
  unfold recordA; split <;> rfl

theorem recordA_hasTx (s : StoreState) (t : ActType) : (recordA s t).hasTx = s.hasTx := by
  unfold recordA; split <;> rfl

theorem recordA_log_true (s : StoreState) (t : ActType) (h : s.hasTx = true) :
    (recordA s t).log = s.log ++ [t] := by
  simp [recordA, h]

theorem setRefCount_data (l : List ChunkRecord) (off : Nat) (r : ChunkRecord)
    (rc : Nat) (i : Nat) (hget : l.get? off = some r) :
    ((l.set off { r with refCount := rc }).get? i).map ChunkRecord.data
      = (l.get? i).map ChunkRecord.data := by
  by_cases hio : off = i
  · subst hio
    have hlt : off < l.length := by
      by_contra hno
      rw [List.get?_eq_none.mpr (by omega)] at hget
      cases hget
    rw [List.get?_set_eq_of_lt _ hlt, hget]
    rfl
  · rw [List.get?_set_ne _ _ hio]

theorem decRefAt_log (s : StoreState) (off : Nat) (k : Bytes) :
    (decRefAt s off k).log = s.log := by
  unfold decRefAt
  split
  · rfl
  · dsimp only
    split <;> split <;> rfl

theorem decRefAt_hasTx (s : StoreState) (off : Nat) (k : Bytes) :
    (decRefAt s off k).hasTx = s.hasTx := by
  unfold decRefAt
  split
  · rfl
  · dsimp only
    split <;> split <;> rfl

theorem decRefAt_index_nonzero (s : StoreState) (off : Nat) (k : Bytes)
    (r : ChunkRecord) (hget : s.file.get? off = some r)
    (hrc : ¬ (if r.refCount > 0 then r.refCount - 1 else r.refCount) = 0) :
    (decRefAt s off k).index = s.index := by
  unfold decRefAt
  rw [hget]
  simp only [if_neg hrc]

theorem decRefAt_file_length (s : StoreState) (off : Nat) (k : Bytes) :
    (decRefAt s off k).file.length = s.file.length := by
  unfold decRefAt
  split
  · rfl
  · dsimp only
    split <;> split <;> simp [List.length_set]

theorem decRefAt_file_data (s : StoreState) (off : Nat) (k : Bytes) (i : Nat) :
    ((decRefAt s off k).file.get? i).map ChunkRecord.data
      = (s.file.get? i).map ChunkRecord.data := by
  unfold decRefAt
  split
  · rfl
  · rename_i r heq
    dsimp only
    split <;> split <;> exact setRefCount_data s.file off r _ i heq

theorem deleteAddrs_log (s : StoreState) (addrs : List Bytes) :
    (deleteAddrs s addrs).log = s.log := by
  induction addrs generalizing s with
  | nil => rfl
  | cons a rest ih =>
    simp only [deleteAddrs]
    cases idxFind s.index a with
    | some off => rw [ih, decRefAt_log]
    | none =>
      cases idxFind s.index (hexEncode a) with
      | some off => rw [ih, decRefAt_log]
      | none => rw [ih]

theorem deleteAddrs_hasTx (s : StoreState) (addrs : List Bytes) :
    (deleteAddrs s addrs).hasTx = s.hasTx := by
  induction addrs generalizing s with
  | nil => rfl
  | cons a rest ih =>
    simp only [deleteAddrs]
    cases idxFind s.index a with
    | some off => rw [ih, decRefAt_hasTx]
    | none =>
      cases idxFind s.index (hexEncode a) with
      | some off => rw [ih, decRefAt_hasTx]
      | none => rw [ih]

theorem deleteAddrs_file_length (s : StoreState) (addrs : List Bytes) :
    (deleteAddrs s addrs).file.length = s.file.length := by
  induction addrs generalizing s with
  | nil => rfl
  | cons a rest ih =>
    simp only [deleteAddrs]
    cases idxFind s.index a with
    | some off => rw [ih, decRefAt_file_length]
    | none =>
      cases idxFind s.index (hexEncode a) with
      | some off => rw [ih, decRefAt_file_length]
      | none => rw [ih]

theorem deleteAddrs_file_data (s : StoreState) (addrs : List Bytes) (i : Nat) :
    ((deleteAddrs s addrs).file.get? i).map ChunkRecord.data
      = (s.file.get? i).map ChunkRecord.data := by
  induction addrs generalizing s with
  | nil => rfl
  | cons a rest ih =>
    simp only [deleteAddrs]
    cases idxFind s.index a with
    | some off => rw [ih, decRefAt_file_data]
    | none =>
      cases idxFind s.index (hexEncode a) with
      | some off => rw [ih, decRefAt_file_data]
      | none => rw [ih]

theorem DeleteStore_log (s : StoreState) (addrs : List Bytes) (h : s.hasTx = true) :
    (DeleteStore s addrs).log = s.log ++ [ActType.deleteContent] := by
  unfold DeleteStore
  rw [deleteAddrs_log, recordA_log_true _ _ h]

theorem DeleteStore_hasTx (s : StoreState) (addrs : List Bytes) :
    (DeleteStore s addrs).hasTx = s.hasTx := by
  unfold DeleteStore
  rw [deleteAddrs_hasTx, recordA_hasTx]

theorem DeleteStore_file_length (s : StoreState) (addrs : List Bytes) :
    (DeleteStore s addrs).file.length = s.file.length := by
  unfold DeleteStore
  rw [deleteAddrs_file_length, recordA_file]

theorem DeleteStore_file_data (s : StoreState) (addrs : List Bytes) (i : Nat) :
    ((DeleteStore s addrs).file.get? i).map ChunkRecord.data
      = (s.file.get? i).map ChunkRecord.data := by
  unfold DeleteStore
  rw [deleteAddrs_file_data, recordA_file]

/-! C4: address resolution of Delete versus Get. -/

/-- A store with two aliases of one chunk at reference count 2: the store
`sC4` after a second `Put` of the same content. -/
def sPut2 : StoreState := (Put hFix split1 sC4 [5]).1

/-- C4 counterexample.  First part: on the reachable store `sC4` (one chunk
stored for `[5]`), the 33-byte address `addrP` resolves through `Get`'s
64-character-suffix fallback and returns the payload, while `Delete` on the
very same address resolves nothing, silently skipping: the file (including
its reference count) and the index are left unchanged instead of the
resolved chunk being decremented.  Second part: on `sC7`, whose single
chunk is indexed both under the raw hash suffix and under the prefixed id
`idPfx`, deleting by the raw key drops the count to zero and removes the
raw key, but the prefixed-id alias of that same chunk survives in the
index — so "removes all equivalent key representations of that chunk" also
fails. -/
theorem delete_missing_suffix_cex :
    (getChunks sC4 [addrP] = some [5]
      ∧ (DeleteStore sC4 [addrP]).file = sC4.file
      ∧ (DeleteStore sC4 [addrP]).index = sC4.index)
    ∧ (((DeleteStore sC7 [List.replicate 32 0]).file.get? 0).map ChunkRecord.refCount
          = some 0
      ∧ idxFind (DeleteStore sC7 [List.replicate 32 0]).index (List.replicate 32 0)
          = none
      ∧ idxFind (DeleteStore sC7 [List.replicate 32 0]).index idPfx = some 0) := by
  decide

theorem hexEncode_ne_self_of_len32 (addr : Bytes) (h : addr.length = 32) :
    hexEncode addr ≠ addr := by
  intro he
  have := congrArg List.length he
  rw [hexEncode_length, h] at this
  omega

theorem idxFind_eraseEquiv_self (idx : Index) (k : Bytes) :
    idxFind (eraseEquiv idx k) k = none := by
  unfold eraseEquiv
  dsimp only
  split
  · split <;> simp [idxFind_idxErase]
  · split
    · simp [idxFind_idxErase]
    · split
      · split <;> simp [idxFind_idxErase]
      · simp [idxFind_idxErase]

theorem idxFind_eraseEquiv_hex32 (idx : Index) (k : Bytes) (h : k.length = 32) :
    idxFind (eraseEquiv idx k) (hexEncode k) = none := by
  unfold eraseEquiv
  dsimp only
  rw [if_neg (by omega : ¬ k.length = 64), if_pos h]
  simp [idxFind_idxErase]

theorem idxFind_eraseEquiv_raw64 (idx : Index) (k : Bytes) (hb : Bytes)
    (h : k.length = 64) (hd : hexDecode k = some hb) :
    idxFind (eraseEquiv idx k) hb = none := by
  unfold eraseEquiv
  dsimp only
  rw [if_pos h, hd]
  simp [idxFind_idxErase]

/-- C4 amended: `Delete` resolves each address by the raw key and then the
hex-encoded key only — unlike `Get` it has no 64-character-suffix fallback,
and an address resolving by neither is skipped silently, leaving file and
index untouched (first conjunct; with `delete_missing_suffix_cex` this
shows `Get` can resolve an address that `Delete` ignores).  Every address
that does resolve — by either path, at any reference count — has its
chunk's count decremented by one (never below zero) with all payloads
untouched; a count still positive leaves the index unchanged, and a count
reaching zero removes exactly the resolution key and the equivalent
representations derived from its shape (`eraseEquiv`): in particular the
key itself, the hex form of a 32-byte raw key, and the raw decoding of a
64-character hex key all resolve to nothing afterwards.  A prefixed-id
alias of the same chunk is not removed (see the counterexample). -/
theorem delete_resolution (s : StoreState) (addr : Bytes) :
    (idxFind s.index addr = none → idxFind s.index (hexEncode addr) = none →
      (DeleteStore s [addr]).file = s.file ∧ (DeleteStore s [addr]).index = s.index)
    ∧ (∀ k off r,
        ((k = addr ∧ idxFind s.index addr = some off)
          ∨ (k = hexEncode addr ∧ idxFind s.index addr = none
              ∧ idxFind s.index (hexEncode addr) = some off)) →
        s.file.get? off = some r →
        ((DeleteStore s [addr]).file.get? off).map ChunkRecord.refCount
            = some (r.refCount - 1)
        ∧ (∀ i, ((DeleteStore s [addr]).file.get? i).map ChunkRecord.data
            = (s.file.get? i).map ChunkRecord.data)
        ∧ (0 < r.refCount - 1 → (DeleteStore s [addr]).index = s.index)
        ∧ (r.refCount - 1 = 0 →
            (DeleteStore s [addr]).index = eraseEquiv s.index k
            ∧ idxFind (DeleteStore s [addr]).index k = none
            ∧ (k.length = 32 →
                idxFind (DeleteStore s [addr]).index (hexEncode k) = none)
            ∧ (∀ hb, k.length = 64 → hexDecode k = some hb →
                idxFind (DeleteStore s [addr]).index hb = none))) := by
  constructor
  · intro hr hh
    have hr' : idxFind (recordA s ActType.deleteContent).index addr = none := by
      rw [recordA_index]; exact hr
    have hh' : idxFind (recordA s ActType.deleteContent).index (hexEncode addr) = none := by
      rw [recordA_index]; exact hh
    unfold DeleteStore deleteAddrs
    rw [hr', hh']
    exact ⟨recordA_file s _, recordA_index s _⟩
  · intro k off r hres hget
    have hget' : (recordA s ActType.deleteContent).file.get? off = some r := by
      rw [recordA_file]; exact hget
    have hlt : off < s.file.length := by
      by_contra hno
      rw [List.get?_eq_none.mpr (by omega)] at hget
      cases hget
    have hstep : DeleteStore s [addr]
        = decRefAt (recordA s ActType.deleteContent) off k := by
      rcases hres with ⟨hk, hr⟩ | ⟨hk, hrn, hh⟩
      · subst hk
        have hr' : idxFind (recordA s ActType.deleteContent).index k = some off := by
          rw [recordA_index]; exact hr
        unfold DeleteStore deleteAddrs
        rw [hr']
        rfl
      · subst hk
        have hrn' : idxFind (recordA s ActType.deleteContent).index addr = none := by
          rw [recordA_index]; exact hrn
        have hh' : idxFind (recordA s ActType.deleteContent).index (hexEncode addr)
            = some off := by
          rw [recordA_index]; exact hh
        unfold DeleteStore deleteAddrs
        rw [hrn']
        dsimp only
        rw [hh']
        rfl
    have hrc_eq : (if r.refCount > 0 then r.refCount - 1 else r.refCount)
        = r.refCount - 1 := by
      split <;> omega
    have hdec0 : r.refCount - 1 = 0 →
        decRefAt (recordA s ActType.deleteContent) off k
          = { recordA s ActType.deleteContent with
                file := (recordA s ActType.deleteContent).file.set off
                  { r with refCount := r.refCount - 1 }
                index := eraseEquiv s.index k } := by
      intro hz
      unfold decRefAt
      rw [hget']
      dsimp only
      rw [hrc_eq, if_pos hz, recordA_index]
    have hdec1 : 0 < r.refCount - 1 →
        decRefAt (recordA s ActType.deleteContent) off k
          = { recordA s ActType.deleteContent with
                file := (recordA s ActType.deleteContent).file.set off
                  { r with refCount := r.refCount - 1 } } := by
      intro hp
      unfold decRefAt
      rw [hget']
      dsimp only
      rw [hrc_eq, if_neg (by omega)]
    have hfile : (DeleteStore s [addr]).file
        = s.file.set off { r with refCount := r.refCount - 1 } := by
      rcases Nat.eq_zero_or_pos (r.refCount - 1) with hz | hp
      · rw [hstep, hdec0 hz]
        dsimp only
        rw [recordA_file]
      · rw [hstep, hdec1 hp]
        dsimp only
        rw [recordA_file]
    have hidx0 : r.refCount - 1 = 0 →
        (DeleteStore s [addr]).index = eraseEquiv s.index k := by
      intro hz
      rw [hstep, hdec0 hz]
    refine ⟨?_, ?_, ?_, ?_⟩
    · rw [hfile, List.get?_set_eq_of_lt _ hlt]
      rfl
    · intro i
      rw [hfile]
      exact setRefCount_data s.file off r _ i hget
    · intro hp
      rw [hstep, hdec1 hp]
      dsimp only
      rw [recordA_index]
    · intro hz
      refine ⟨hidx0 hz, ?_, ?_, ?_⟩
      · rw [hidx0 hz]
        exact idxFind_eraseEquiv_self s.index k
      · intro h32
        rw [hidx0 hz]
        exact idxFind_eraseEquiv_hex32 s.index k h32
      · intro hb h64 hd
        rw [hidx0 hz]
        exact idxFind_eraseEquiv_raw64 s.index k hb h64 hd

/-- Witness for `delete_resolution`: the silent skip at the suffix-only
address `addrP`; the hex-resolution path (the one a delete after `Put`
takes, since `Put` indexes only the hex key) dropping the count of the
`sC4` chunk from 1 to 0 and removing both the hex key and its raw
decoding; and a decrement from reference count 2 to 1 on `sPut2` that
leaves the index unchanged. -/
theorem delete_resolution_witness :
    ((DeleteStore sC4 [addrP]).file = sC4.file
        ∧ (DeleteStore sC4 [addrP]).index = sC4.index)
      ∧ ((DeleteStore sC4 [hFix [5]]).file.get? 0).map ChunkRecord.refCount = some 0
      ∧ idxFind (DeleteStore sC4 [hFix [5]]).index (hexEncode (hFix [5])) = none
      ∧ idxFind (DeleteStore sC4 [hFix [5]]).index (hFix [5]) = none
      ∧ (DeleteStore sPut2 [hFix [5]]).index = sPut2.index
      ∧ ((DeleteStore sPut2 [hFix [5]]).file.get? 0).map ChunkRecord.refCount
          = some 1 :=
  ⟨(delete_resolution sC4 addrP).1 (by decide) (by decide),
    ((delete_resolution sC4 (hFix [5])).2 (hexEncode (hFix [5])) 0 ⟨hFix [5], 1, [5]⟩
        (Or.inr ⟨rfl, by decide, by decide⟩) (by decide)).1,
    (((delete_resolution sC4 (hFix [5])).2 (hexEncode (hFix [5])) 0 ⟨hFix [5], 1, [5]⟩
        (Or.inr ⟨rfl, by decide, by decide⟩) (by decide)).2.2.2 rfl).2.1,
    (((delete_resolution sC4 (hFix [5])).2 (hexEncode (hFix [5])) 0 ⟨hFix [5], 1, [5]⟩
        (Or.inr ⟨rfl, by decide, by decide⟩) (by decide)).2.2.2 rfl).2.2.2
      (hFix [5]) (by decide) (by decide),
    ((delete_resolution sPut2 (hFix [5])).2 (hexEncode (hFix [5])) 0 ⟨hFix [5], 2, [5]⟩
        (Or.inr ⟨rfl, by decide, by decide⟩) (by decide)).2.2.1 (by decide),
    ((delete_resolution sPut2 (hFix [5])).2 (hexEncode (hFix [5])) 0 ⟨hFix [5], 2, [5]⟩
        (Or.inr ⟨rfl, by decide, by decide⟩) (by decide)).1⟩

/-! C10: DeleteLink removes at most one link per call. -/

/-- Number of delete-link actions in a log. -/
def countDL (l : List ActType) : Nat := l.count ActType.deleteLink

theorem deleteLinkGo_spec (dl : Bytes → Option LinkRec) (r : Repo)
    (src tgt ty : Bytes) (hT : r.store.hasTx = true) (cs : List Bytes)
    (hm : ∃ c ∈ cs, linkMatchesB dl r.store src tgt ty c = true) :
    (deleteLinkGo dl r src tgt ty cs).2 = cs.find? (linkMatchesB dl r.store src tgt ty)
    ∧ countDL (deleteLinkGo dl r src tgt ty cs).1.store.log = countDL r.store.log + 1
    ∧ (deleteLinkGo dl r src tgt ty cs).1.store.file.length = r.store.file.length
    ∧ (∀ i, ((deleteLinkGo dl r src tgt ty cs).1.store.file.get? i).map ChunkRecord.data
        = (r.store.file.get? i).map ChunkRecord.data)
    ∧ (deleteLinkGo dl r src tgt ty cs).1.edgeCount
        = (if 0 < r.edgeCount then r.edgeCount - 1 else r.edgeCount)
    ∧ (deleteLinkGo dl r src tgt ty cs).1.nodeCount = r.nodeCount := by
  induction cs with
  | nil => simp at hm
  | cons c rest ih =>
    by_cases hc : linkMatchesB dl r.store src tgt ty c = true
    · have hgo : deleteLinkGo dl r src tgt ty (c :: rest)
          = ({ store := recordA (DeleteStore r.store [c]) ActType.deleteLink
               nodeCount := r.nodeCount
               edgeCount := if r.edgeCount > 0 then r.edgeCount - 1 else r.edgeCount },
             some c) := by
        simp only [deleteLinkGo, hc, if_true]
      have hTd : (DeleteStore r.store [c]).hasTx = true := by
        rw [DeleteStore_hasTx]; exact hT
      refine ⟨?_, ?_, ?_, ?_, ?_, ?_⟩
      · rw [hgo, List.find?_cons_of_pos _ hc]
      · rw [hgo]
        simp only []
        rw [recordA_log_true _ _ hTd, DeleteStore_log _ _ hT]
        simp [countDL, List.count_append]
      · rw [hgo]
        simp only []
        rw [recordA_file, DeleteStore_file_length]
      · intro i
        rw [hgo]
        simp only []
        rw [recordA_file, DeleteStore_file_data]
      · rw [hgo]
      · rw [hgo]
    · have hc' : linkMatchesB dl r.store src tgt ty c = false := by
        cases hcv : linkMatchesB dl r.store src tgt ty c
        · rfl
        · exact absurd hcv hc
      have hgo : deleteLinkGo dl r src tgt ty (c :: rest)
          = deleteLinkGo dl r src tgt ty rest := by
        simp only [deleteLinkGo, hc', Bool.false_eq_true, if_false]
      have hm' : ∃ c' ∈ rest, linkMatchesB dl r.store src tgt ty c' = true := by
        rcases hm with ⟨c', hc'mem, hc'm⟩
        rcases List.mem_cons.mp hc'mem with h | h
        · subst h; exact absurd hc'm hc
        · exact ⟨c', h, hc'm⟩
      have hfind : (c :: rest).find? (linkMatchesB dl r.store src tgt ty)
          = rest.find? (linkMatchesB dl r.store src tgt ty) :=
        List.find?_cons_of_neg _ (by rw [hc']; exact Bool.false_ne_true)
      rw [hgo, hfind]
      exact ih hm'

/-- C10: `DeleteLink` removes at most one link per call: when at least one
stored chunk matches, the deleted chunk is exactly the first matching one
in enumeration order, exactly one delete-link action is recorded, the edge
counter is decremented at most once (never below zero), and every stored
record's payload — in particular every other matching link — survives
untouched. -/
theorem deletelink_at_most_one (dl : Bytes → Option LinkRec) (r : Repo)
    (src tgt ty : Bytes) (hT : r.store.hasTx = true)
    (hm : ∃ c ∈ ListChunks r.store, linkMatchesB dl r.store src tgt ty c = true) :
    (DeleteLink dl r src tgt ty).2
        = (ListChunks r.store).find? (linkMatchesB dl r.store src tgt ty)
    ∧ countDL (DeleteLink dl r src tgt ty).1.store.log = countDL r.store.log + 1
    ∧ (DeleteLink dl r src tgt ty).1.store.file.length = r.store.file.length
    ∧ (∀ i, ((DeleteLink dl r src tgt ty).1.store.file.get? i).map ChunkRecord.data
        = (r.store.file.get? i).map ChunkRecord.data)
    ∧ (DeleteLink dl r src tgt ty).1.edgeCount
        = (if 0 < r.edgeCount then r.edgeCount - 1 else r.edgeCount)
    ∧ (DeleteLink dl r src tgt ty).1.nodeCount = r.nodeCount :=
  deleteLinkGo_spec dl r src tgt ty hT (ListChunks r.store) hm

/-- Witness for `deletelink_at_most_one` on the two-matching-link
repository `rL`. -/
theorem deletelink_at_most_one_witness :
    (DeleteLink dlC rL [10] [11] [12]).2
        = (ListChunks rL.store).find? (linkMatchesB dlC rL.store [10] [11] [12])
      ∧ countDL (DeleteLink dlC rL [10] [11] [12]).1.store.log = countDL rL.store.log + 1
      ∧ (DeleteLink dlC rL [10] [11] [12]).1.edgeCount
        = (if 0 < rL.edgeCount then rL.edgeCount - 1 else rL.edgeCount) :=
  ⟨(deletelink_at_most_one dlC rL [10] [11] [12] rfl (by decide)).1,
    (deletelink_at_most_one dlC rL [10] [11] [12] rfl (by decide)).2.1,
    (deletelink_at_most_one dlC rL [10] [11] [12] rfl (by decide)).2.2.2.2.1⟩

/-! C1: the chunk round-trip. -/

/-- The hash function behaves like SHA-256 on the surface: 32 bytes of
output, each a byte value. -/
def HashOK (H : Bytes → Bytes) : Prop :=
  ∀ d, (H d).length = 32 ∧ ∀ b ∈ H d, b < 256

/-- A hash-consistent store: every index entry points at a live record whose
stored hash is the hash of its payload, and is keyed by the raw or the
hex-encoded form of that hash.  This is the state discipline `Put`,
`Get` and `loadIndex` maintain; `PutWithID` can leave it (see the
counterexample). -/
def Consistent (H : Bytes → Bytes) (s : StoreState) : Prop :=
  ∀ k off, idxFind s.index k = some off →
    ∃ r, s.file.get? off = some r ∧ r.hash = H r.data
      ∧ (k = r.hash ∨ k = hexEncode r.hash)

/-- `H` is collision-free across the listed payloads. -/
def NoCollisionOn (H : Bytes → Bytes) (ds : List Bytes) : Prop :=
  ∀ a ∈ ds, ∀ b ∈ ds, H a = H b → a = b

/-- Every stored payload belongs to the ambient payload list. -/
def DataSub (s : StoreState) (ds : List Bytes) : Prop := ∀ r ∈ s.file, r.data ∈ ds

theorem setRefCount_pair (l : List ChunkRecord) (off : Nat) (r : ChunkRecord)
    (rc : Nat) (i : Nat) (hget : l.get? off = some r) :
    ((l.set off { r with refCount := rc }).get? i).map (fun x => (x.hash, x.data))
      = (l.get? i).map (fun x => (x.hash, x.data)) := by
  by_cases hio : off = i
  · subst hio
    have hlt : off < l.length := by
      by_contra hno
      rw [List.get?_eq_none.mpr (by omega)] at hget
      cases hget
    rw [List.get?_set_eq_of_lt _ hlt, hget]
    rfl
  · rw [List.get?_set_ne _ _ hio]

theorem incRefAt_index (s : StoreState) (off : Nat) :
    (incRefAt s off).index = s.index := by
  unfold incRefAt; split <;> rfl

theorem incRefAt_file_pair (s : StoreState) (off : Nat) (i : Nat) :
    ((incRefAt s off).file.get? i).map (fun x => (x.hash, x.data))
      = (s.file.get? i).map (fun x => (x.hash, x.data)) := by
  unfold incRefAt
  split
  · rfl
  · rename_i r heq
    exact setRefCount_pair s.file off r _ i heq

theorem consistent_transfer (H : Bytes → Bytes) (s t : StoreState)
    (hidx : t.index = s.index)
    (hpair : ∀ i, (t.file.get? i).map (fun x => (x.hash, x.data))
      = (s.file.get? i).map (fun x => (x.hash, x.data)))
    (h : Consistent H s) : Consistent H t := by
  intro k off hk
  rw [hidx] at hk
  obtain ⟨r, hget, hh, hkey⟩ := h k off hk
  have hp := hpair off
  rw [hget] at hp
  obtain ⟨r', hget', hpr⟩ := Option.map_eq_some'.mp hp
  have h1 : r'.hash = r.hash := congrArg Prod.fst hpr
  have h2 : r'.data = r.data := congrArg Prod.snd hpr
  refine ⟨r', hget', ?_, ?_⟩
  · rw [h1, h2, hh]
  · rw [h1]; exact hkey

theorem dataSub_transfer (s t : StoreState) (ds : List Bytes)
    (hpair : ∀ i, (t.file.get? i).map (fun x => (x.hash, x.data))
      = (s.file.get? i).map (fun x => (x.hash, x.data)))
    (h : DataSub s ds) : DataSub t ds := by
  intro r hr
  obtain ⟨i, hget2⟩ := List.mem_iff_get?.mp hr
  have hp := hpair i
  rw [hget2] at hp
  obtain ⟨r', hget', hpr⟩ := Option.map_eq_some'.mp hp.symm
  have h2 : r'.data = r.data := congrArg Prod.snd hpr
  rw [← h2]
  exact h r' (List.get?_mem hget')

theorem putChunks_inv (H : Bytes → Bytes) (DS : List Bytes) (cs : List Bytes)
    (s : StoreState) (hcons : Consistent H s) (hds : DataSub s DS)
    (hcs : ∀ c ∈ cs, c ∈ DS) :
    Consistent H (putChunks H s cs).1
    ∧ DataSub (putChunks H s cs).1 DS
    ∧ (putChunks H s cs).2.1 = cs.map H
    ∧ (∀ k, (idxFind s.index k).isSome → (idxFind (putChunks H s cs).1.index k).isSome)
    ∧ (∀ c ∈ cs, (idxFind (putChunks H s cs).1.index (hexEncode (H c))).isSome) := by
  induction cs generalizing s with
  | nil =>
    refine ⟨hcons, hds, rfl, fun k hk => hk, ?_⟩
    intro c hc
    cases hc
  | cons c rest ih =>
    cases hf : idxFind s.index (hexEncode (H c)) with
    | some off =>
      have hstep : putChunks H s (c :: rest)
          = ((putChunks H (incRefAt s off) rest).1,
             H c :: (putChunks H (incRefAt s off) rest).2.1,
             Event.incRef off :: (putChunks H (incRefAt s off) rest).2.2) := by
        simp only [putChunks, hf]
      have hcons1 : Consistent H (incRefAt s off) :=
        consistent_transfer H s _ (incRefAt_index s off) (incRefAt_file_pair s off) hcons
      have hds1 : DataSub (incRefAt s off) DS :=
        dataSub_transfer s _ DS (incRefAt_file_pair s off) hds
      obtain ⟨ha, hb, hcadr, hmono, hhit⟩ :=
        ih (incRefAt s off) hcons1 hds1 (fun c' hc' => hcs c' (by simp [hc']))
      rw [hstep]
      refine ⟨ha, hb, by rw [hcadr]; rfl, ?_, ?_⟩
      · intro k hk
        exact hmono k (by rw [incRefAt_index]; exact hk)
      · intro c' hc'
        rcases List.mem_cons.mp hc' with h | h
        · subst h
          refine hmono (hexEncode (H c')) ?_
          rw [incRefAt_index, hf]
          rfl
        · exact hhit c' h
    | none =>
      set rec : ChunkRecord := ⟨H c, 1, c⟩ with hrec
      set s2 : StoreState :=
        { file := s.file ++ [rec]
          index := idxInsert s.index (hexEncode (H c)) s.file.length
          hasTx := s.hasTx
          log := s.log } with hs2
      have hstep : putChunks H s (c :: rest)
          = ((putChunks H s2 rest).1,
             H c :: (putChunks H s2 rest).2.1,
             Event.write c :: (putChunks H s2 rest).2.2) := by
        simp only [putChunks, hf, writeChunk]
      have hcons2 : Consistent H s2 := by
        intro k off hk
        rw [hs2] at hk
        simp only [idxFind_idxInsert] at hk
        by_cases he : hexEncode (H c) = k
        · rw [if_pos he] at hk
          cases hk
          refine ⟨rec, ?_, rfl, Or.inr ?_⟩
          · simp only [hs2]
            exact List.get?_concat_length s.file rec
          · rw [← he]
        · rw [if_neg he] at hk
          obtain ⟨r, hget, hh, hkey⟩ := hcons k off hk
          have hlt : off < s.file.length := by
            by_contra hno
            rw [List.get?_eq_none.mpr (by omega)] at hget
            cases hget
          refine ⟨r, ?_, hh, hkey⟩
          simp only [hs2]
          rw [List.get?_append hlt]
          exact hget
      have hds2 : DataSub s2 DS := by
        intro r hr
        simp only [hs2, List.mem_append, List.mem_singleton] at hr
        rcases hr with h | h
        · exact hds r h
        · subst h
          exact hcs c (by simp)
      obtain ⟨ha, hb, hcadr, hmono, hhit⟩ :=
        ih s2 hcons2 hds2 (fun c' hc' => hcs c' (by simp [hc']))
      rw [hstep]
      refine ⟨ha, hb, by rw [hcadr]; rfl, ?_, ?_⟩
      · intro k hk
        refine hmono k ?_
        simp only [hs2]
        exact idxFind_isSome_idxInsert s.index (hexEncode (H c)) k s.file.length hk
      · intro c' hc'
        rcases List.mem_cons.mp hc' with h | h
        · subst h
          refine hmono (hexEncode (H c')) ?_
          simp only [hs2, idxFind_idxInsert, if_pos rfl]
          rfl
        · exact hhit c' h

theorem resolve_put (H : Bytes → Bytes) (DS : List Bytes) (hH : HashOK H)
    (hnc : NoCollisionOn H DS) (s : StoreState) (hcons : Consistent H s)
    (hds : DataSub s DS) (c : Bytes) (hc : c ∈ DS)
    (hhit : (idxFind s.index (hexEncode (H c))).isSome) :
    ∃ off r, resolveGet s.index (H c) = some off
      ∧ s.file.get? off = some r ∧ r.data = c := by
  have hlenc : (H c).length = 32 := (hH c).1
  cases h1 : idxFind s.index (H c) with
  | some off =>
    obtain ⟨r, hget, hh, hkey⟩ := hcons _ _ h1
    have hlenr : r.hash.length = 32 := by rw [hh]; exact (hH r.data).1
    have hkey' : H c = r.hash := by
      rcases hkey with h | h
      · exact h
      · exfalso
        have := congrArg List.length h
        rw [hlenc, hexEncode_length, hlenr] at this
        omega
    have hdc : r.data = c := by
      refine hnc r.data (hds r (List.get?_mem hget)) c hc ?_
      rw [← hh, hkey']
    refine ⟨off, r, ?_, hget, hdc⟩
    unfold resolveGet
    rw [h1]
  | none =>
    obtain ⟨off, h2⟩ := Option.isSome_iff_exists.mp hhit
    obtain ⟨r, hget, hh, hkey⟩ := hcons _ _ h2
    have hlenr : r.hash.length = 32 := by rw [hh]; exact (hH r.data).1
    have hkey' : hexEncode (H c) = hexEncode r.hash := by
      rcases hkey with h | h
      · exfalso
        have := congrArg List.length h
        rw [hexEncode_length, hlenc, hlenr] at this
        omega
      · exact h
    have hhash : H c = r.hash :=
      hexEncode_inj (H c) r.hash ((hH c).2) (by rw [hh]; exact (hH r.data).2) hkey'
    have hdc : r.data = c := by
      refine hnc r.data (hds r (List.get?_mem hget)) c hc ?_
      rw [← hh, hhash]
    refine ⟨off, r, ?_, hget, hdc⟩
    unfold resolveGet
    rw [h1]
    dsimp only
    rw [h2]

theorem getChunks_map_of_resolve (H : Bytes → Bytes) (s : StoreState) :
    ∀ cs : List Bytes,
      (∀ c ∈ cs, ∃ off r, resolveGet s.index (H c) = some off
        ∧ s.file.get? off = some r ∧ r.data = c) →
      getChunks s (cs.map H) = some cs.flatten := by
  intro cs
  induction cs with
  | nil => intro _; rfl
  | cons c rest ih =>
    intro h
    obtain ⟨off, r, hres, hget, hdata⟩ := h c (by simp)
    simp only [List.map_cons, getChunks]
    rw [hres]
    dsimp only
    rw [hget]
    dsimp only
    rw [ih (fun c' hc' => h c' (by simp [hc']))]
    dsimp only
    rw [hdata]
    rfl

/-- C1 amended: the chunk round-trip holds on every hash-consistent store
state (every index key is the raw or hex form of its record's own content
hash — the discipline `Put`, `Get` and `loadIndex` maintain), provided the
hash is collision-free over the stored and inserted payloads and the
chunker reassembles: `Get` after `Put C` returns exactly `C`.  The
unrestricted claim over all states in which the calls succeed is false:
`PutWithID` can index another content's hash, as the counterexample shows. -/
theorem chunk_roundtrip (H : Bytes → Bytes) (split : Bytes → List Bytes)
    (s : StoreState) (content : Bytes) (hH : HashOK H)
    (hsplit : (split content).flatten = content)
    (hcons : Consistent H s)
    (hnc : NoCollisionOn H (s.file.map ChunkRecord.data ++ split content)) :
    getChunks (Put H split s content).1 (Put H split s content).2.1 = some content := by
  have hcons1 : Consistent H (recordA s ActType.putContent) :=
    consistent_transfer H s _ (recordA_index s _) (fun i => by rw [recordA_file]) hcons
  have hds1 : DataSub (recordA s ActType.putContent)
      (s.file.map ChunkRecord.data ++ split content) := by
    intro r hr
    rw [recordA_file] at hr
    exact List.mem_append.mpr (Or.inl (List.mem_map.mpr ⟨r, hr, rfl⟩))
  obtain ⟨hc2, hd2, haddr, _, hhit⟩ :=
    putChunks_inv H (s.file.map ChunkRecord.data ++ split content) (split content)
      (recordA s ActType.putContent) hcons1 hds1
      (fun c hc => List.mem_append.mpr (Or.inr hc))
  have h1 : (Put H split s content).1
      = (putChunks H (recordA s ActType.putContent) (split content)).1 := rfl
  have h2 : (Put H split s content).2.1
      = (putChunks H (recordA s ActType.putContent) (split content)).2.1 := rfl
  rw [h1, h2, haddr]
  rw [getChunks_map_of_resolve H _ (split content) ?_, hsplit]
  intro c hc
  exact resolve_put H (s.file.map ChunkRecord.data ++ split content) hH hnc _
    hc2 hd2 c (List.mem_append.mpr (Or.inr hc)) (hhit c hc)

/-- Witness for `chunk_roundtrip`: storing `[3, 4]` in a fresh store and
reading it back by the returned addresses. -/
theorem chunk_roundtrip_witness :
    getChunks (Put hFix split1 s0 [3, 4]).1 (Put hFix split1 s0 [3, 4]).2.1
      = some [3, 4] := by
  refine chunk_roundtrip hFix split1 s0 [3, 4] ?_ rfl ?_ ?_
  · intro d
    constructor
    · simp [hFix]
    · intro b hb
      have hb' : b ∈ d.map (· % 256) ++ List.replicate 32 0 := List.mem_of_mem_take hb
      rcases List.mem_append.mp hb' with h | h
      · obtain ⟨a, _, rfl⟩ := List.mem_map.mp h
        exact Nat.mod_lt a (by omega)
      · rw [List.eq_of_mem_replicate h]
        omega
  · intro k off hk
    simp [s0, idxFind] at hk
  · unfold NoCollisionOn
    decide

/-- C1 counterexample: on the reachable state `sPoison` — obtained from a
fresh store by `PutWithID` with the id `idp`, the hex form of the hash of
`[1]`, storing the different content `[2]` — `Put [1]` succeeds with
deduplication against the poisoned entry and `Get` of the returned address
list succeeds but returns `[2]`, not `[1]`. -/
theorem chunk_roundtrip_cex :
    (getChunks (Put hFix split1 sPoison [1]).1 (Put hFix split1 sPoison [1]).2.1).isSome
      = true
    ∧ getChunks (Put hFix split1 sPoison [1]).1 (Put hFix split1 sPoison [1]).2.1
      ≠ some [1] := by decide

end Memex
